import Mathlib

/-!
Verification of core behaviors of the genome-spy repository.

The development shallowly embeds three subsystems:
* `packages/core/src/view/paramMediator.js` — hierarchical reactive
  parameter store (`ParamMediator`), expressions, listener registries and
  the deferred property-change batching of `activateExprRefProps`;
* `packages/genome-spy/src/gl/dataToVertices.js` — the vertex builders
  (`VertexBuilder.addBatch` / `toArrays` range bookkeeping and the
  `RectVertexBuilder` per-datum vertex generation);
* the sample-facet placement GLSL (`isFacetedSamples` / `isInTransit` /
  `applySampleFacet`).

JavaScript `Map`s are embedded as association lists over `String` keys
(`Map.set` keeps the insertion position of an existing key, which the
embedding mirrors), JS `Set`s of listeners as duplicate-free lists in
insertion order, and numbers as rationals (`ℚ`); `undefined` is an
explicit constructor of the parameter `Value` type, since
`Map.get` returns `undefined` for an absent key and the setters compare
against exactly that value.
-/

/-! ## Association-list primitives (JS `Map` embedding) -/

/-- Lookup in an association list: `Map.get`, as an `Option`
(`none` embeds JS `undefined` for an absent key). -/
def assocGet {α : Type} : List (String × α) → String → Option α
  | [], _ => none
  | (k, v) :: rest, key => if k = key then some v else assocGet rest key

/-- JS `Map.set`: overwrite the value at an existing key in place (JS `Map`
keeps the original insertion position), otherwise append the new entry. -/
def assocSet {α : Type} : List (String × α) → String → α → List (String × α)
  | [], key, v => [(key, v)]
  | (k, w) :: rest, key, v =>
    if k = key then (k, v) :: rest else (k, w) :: assocSet rest key v

/-- JS `Map.has`. -/
def assocHas {α : Type} (m : List (String × α)) (key : String) : Bool :=
  (assocGet m key).isSome

/-- Insertion into a JS `Set` kept as an insertion-ordered duplicate-free
list: adding an element already present is a no-op, otherwise it is
appended at the end. -/
def insertIdem {α : Type} [DecidableEq α] (x : α) (xs : List α) : List α :=
  if x ∈ xs then xs else xs ++ [x]

/-- In-place update of the `i`-th element of a list (used to mutate one
mediator inside a parent chain). -/
def updateAt {α : Type} : List α → Nat → (α → α) → List α
  | [], _, _ => []
  | a :: l, 0, f => f a :: l
  | a :: l, n + 1, f => a :: updateAt l n f

/-! ## ParamMediator: data model

From `packages/core/src/view/paramMediator.js`.  A mediator owns
`#paramValues` (a `Map<string, any>`), `paramListeners`
(a `Map<string, Set<() => void>>`, listeners kept as insertion-ordered
ids) and `#allocatedSetters` (only the key set matters: a setter closure
exists per allocated name and is embedded by `setterCall` below).
The `#paramConfigs` and `#expressions` caches are not modelled: no claim
depends on them.  The parent linkage (`#parentFinder`) is embedded
extrinsically: operations that ascend the hierarchy take the chain
`self :: ancestors` as a `List Med`. -/

/-- A JS primitive parameter value; `undef` embeds `undefined`.
JS `!==` on these values is structural inequality. -/
inductive Value where
  | undef : Value
  | num : ℚ → Value
  | str : String → Value
  | boolv : Bool → Value
deriving DecidableEq

/-- One `ParamMediator`'s own state. -/
structure Med where
  paramValues : List (String × Value)
  paramListeners : List (String × List Nat)
  allocatedSetters : List String
deriving DecidableEq

/-- Method `getValue`: reads only the mediator's local `#paramValues`
(`none` = JS `undefined`). -/
def getValue (m : Med) (name : String) : Option Value :=
  assocGet m.paramValues name

/-- Reading `#paramValues.get(name)` as the raw JS value (`undefined` when the
key is absent). -/
def getValueJS (m : Med) (name : String) : Value :=
  (assocGet m.paramValues name).getD Value.undef

/-- Testing `#paramValues.has(name)`: the ownership test used by
`findMediatorForParam`. -/
def owns (m : Med) (name : String) : Bool :=
  assocHas m.paramValues name

/-- The listener set registered for `name` (`paramListeners.get(name)`,
empty when absent). -/
def listenersFor (m : Med) (name : String) : List Nat :=
  (assocGet m.paramListeners name).getD []

/-- Method `findMediatorForParam`, on the chain `self :: ancestors`: the index
of the nearest mediator owning `name`, ascending through the parent
finder; `none` when no mediator on the chain owns the name. -/
def findMediatorIdx : List Med → String → Option Nat
  | [], _ => none
  | m :: rest, name =>
    if owns m name then some 0 else (findMediatorIdx rest name).map (· + 1)

/-- Method `findValue`: value of `name` from the nearest owner on the chain,
`none` (= `undefined`) when unresolved. -/
def findValue (chain : List Med) (name : String) : Option Value :=
  (findMediatorIdx chain name).bind fun i =>
    chain[i]?.bind fun m => getValue m name

/-- The body of the setter closure produced by `allocateSetter`
(lines 96–108): store the new value only if it differs (JS `!==`) from
the previous one, then invoke every listener registered for the name.
Returns the updated mediator and the listeners invoked, in registration
order. -/
def setterCall (m : Med) (name : String) (value : Value) : Med × List Nat :=
  let previous := getValueJS m name
  if value = previous then (m, [])
  else
    ({ m with paramValues := assocSet m.paramValues name value },
      listenersFor m name)

/-- Method `allocateSetter(paramName, initialValue)`: fails if a setter is
already allocated for the name; otherwise invokes the fresh setter once
with the initial value and records the allocation.  Returns the updated
mediator and the listeners fired by the initial invocation. -/
def allocateSetter (m : Med) (name : String) (initial : Value) :
    Except String (Med × List Nat) :=
  if name ∈ m.allocatedSetters then
    Except.error ("Setter already allocated for parameter: " ++ name)
  else
    let r := setterCall m name initial
    Except.ok
      ({ r.1 with allocatedSetters := r.1.allocatedSetters ++ [name] }, r.2)

/-- Method `getSetter(paramName)`: returns the setter stored in
`#allocatedSetters`, throwing when absent.  The stored closure is
`setterCall` for the name (for an expression-backed parameter this is
the *internal* real setter, see `registerParam`). -/
def getSetter (m : Med) (name : String) : Except String String :=
  if name ∈ m.allocatedSetters then Except.ok name
  else Except.error ("Setter not found for parameter: " ++ name)

/-! ## Expressions

`createExpression` compiles a source string with
`createFunction` from `packages/core/src/utils/expression.js`, a file
not present under `src/`.  Modelled from the spec: an expression is a
compiled function over a set of free variable names ("globals"), each
resolved once against the mediator chain; the embedding uses a small
AST whose `exprGlobals` plays the role of `fn.globals`. -/

/-- Modelled from the spec: the compiled expression body
(`createFunction` of `utils/expression.js` is not under `src/`).
Literals, free variables and addition suffice for the claims. -/
inductive Expr where
  | lit : Value → Expr
  | var : String → Expr
  | add : Expr → Expr → Expr
deriving DecidableEq

/-- Modelled from the spec: `fn.globals`, the free variable names of a
compiled expression, each listed once. -/
def exprGlobals : Expr → List String
  | Expr.lit _ => []
  | Expr.var g => [g]
  | Expr.add a b =>
    (exprGlobals b).foldl (fun acc g => insertIdem g acc) (exprGlobals a)

/-- The variable-resolution loop of `createExpression`
(lines 189–205): resolve every global against
`findMediatorForParam`'s ascent, throwing at the first unresolved
variable; on success each global is bound to the index (in the chain)
of the mediator that owns it, fixed for the expression's lifetime. -/
def resolveGlobals (chain : List Med) : List String →
    Except String (List (String × Nat))
  | [] => Except.ok []
  | g :: gs =>
    match findMediatorIdx chain g with
    | none => Except.error ("Unknown variable in expression: " ++ g)
    | some i => (resolveGlobals chain gs).map (fun bs => (g, i) :: bs)

/-- Method `createExpression`'s compile-time variable check and binding
(caching by source text is not modelled; no claim depends on it). -/
def createExpressionBindings (chain : List Med) (e : Expr) :
    Except String (List (String × Nat)) :=
  resolveGlobals chain (exprGlobals e)

/-- JS `+` restricted to the embedded values: numeric addition;
anything else is a non-value placeholder (`undef`). -/
def valueAdd : Value → Value → Value
  | Value.num a, Value.num b => Value.num (a + b)
  | _, _ => Value.undef

/-- Evaluation of a compiled expression: each bound variable reads
`mediator.getValue(param)` through the getter installed on the global
object (lines 199–204). -/
def evalExpr (chain : List Med) (bindings : List (String × Nat)) :
    Expr → Value
  | Expr.lit v => v
  | Expr.var g =>
    match assocGet bindings g with
    | some i =>
      match chain[i]? with
      | some m => getValueJS m g
      | none => Value.undef
    | none => Value.undef
  | Expr.add a b => valueAdd (evalExpr chain bindings a) (evalExpr chain bindings b)

/-- Method `fn.addListener(listener)` (lines 218–227): for every bound
`(param, mediator)` pair, fetch-or-create the mediator's listener set
for `param` and add the listener to it.  The chain element at the bound
index is mutated in place. -/
def addListenerRegistry (chain : List Med) :
    List (String × Nat) → Nat → List Med
  | [], _ => chain
  | b :: rest, lid =>
    addListenerRegistry
      (updateAt chain b.2 fun m =>
        { m with
          paramListeners :=
            assocSet m.paramListeners b.1
              (insertIdem lid ((assocGet m.paramListeners b.1).getD [])) })
      rest lid

/-- Method `fn.invalidate()` (lines 233–239): for every bound
`(param, mediator)` pair, delete each of the expression's own listeners
(`myListeners`) from that mediator's existing listener set for `param`
(a missing set is left untouched). -/
def invalidateRegistry (chain : List Med) :
    List (String × Nat) → List Nat → List Med
  | [], _ => chain
  | b :: rest, myListeners =>
    invalidateRegistry
      (updateAt chain b.2 fun m =>
        { m with
          paramListeners :=
            match assocGet m.paramListeners b.1 with
            | none => m.paramListeners
            | some xs =>
              assocSet m.paramListeners b.1
                (myListeners.foldl (fun ys l => ys.erase l) xs) })
      rest myListeners

/-- The listener set for parameter `g` of the mediator at index `i` of
a chain (empty when the index or the key is absent). -/
def listenersAt (chain : List Med) (i : Nat) (g : String) : List Nat :=
  match chain[i]? with
  | some m => listenersFor m g
  | none => []

/-- A sequence of `addListener` calls of one expression: each call loops
over the fixed bindings (`addListenerRegistry`); `myListeners`
accumulates exactly the listeners passed. -/
def addListenersAll (chain : List Med) (bindings : List (String × Nat)) :
    List Nat → List Med
  | [] => chain
  | l :: ls => addListenersAll (addListenerRegistry chain bindings l) bindings ls

/-! ## registerParam -/

/-- A `VariableParameter` spec: `"value" in param` / `"expr" in param`
presence is embedded as `Option`. -/
structure ParamSpec where
  name : String
  value : Option Value
  expr : Option Expr
deriving DecidableEq

/-- The setter returned by `registerParam`: either the real setter
closure for a name, or the `(_) => undefined` no-op returned for an
expression-backed parameter (line 73). -/
inductive Setter where
  | real : String → Setter
  | nop : Setter
deriving DecidableEq

/-- Invoking a setter obtained from `registerParam`/`getSetter` on the
mediator that allocated it. -/
def applySetter : Setter → Med → Value → Med × List Nat
  | Setter.nop, m, _ => (m, [])
  | Setter.real name, m, v => setterCall m name v

/-- Method `registerParam(param)` (lines 54–79), operating on the chain
`self :: ancestors` (`self` is mutated; for an expression the listener
`lid` — the closure `() => realSetter(expr(null))` — is registered in
every bound mediator's registry).  Fails when the spec has both `value`
and `expr`; `#paramConfigs` bookkeeping is not modelled. -/
def registerParam (chain : List Med) (p : ParamSpec) (lid : Nat) :
    Except String (Setter × List Med) :=
  match chain with
  | [] => Except.error "no mediator"
  | m :: rest =>
    match p.value, p.expr with
    | some _, some _ =>
      Except.error ("Parameter must not have both value and expr: " ++ p.name)
    | some v, none => do
      let r ← allocateSetter m p.name v
      Except.ok (Setter.real p.name, r.1 :: rest)
    | none, some e => do
      let bindings ← createExpressionBindings chain e
      let seed := evalExpr chain bindings e
      let r ← allocateSetter m p.name seed
      let chain' := addListenerRegistry (r.1 :: rest) bindings lid
      Except.ok (Setter.nop, chain')
    | none, none => Except.error "Parameter must have either value or expr"

/-! ## activateExprRefProps: deferred property-change batching

Lines 301–336 of `paramMediator.js`.  `batchPropertyChange(prop)` pushes
the property onto the shared `alteredProps` array; when the push made the
array's length 1 a microtask is queued that delivers
`alteredProps.slice()` to the listener and clears the array. -/

/-- The closure state of `activateExprRefProps`: the pending
`alteredProps` array and the number of queued (not yet run) flush
microtasks. -/
structure BatchState where
  alteredProps : List String
  queuedFlushes : Nat
deriving DecidableEq

/-- Closure `batchPropertyChange(prop)`: append, and queue one flush microtask
exactly when the append made the pending list length 1. -/
def batchPropertyChange (st : BatchState) (prop : String) : BatchState :=
  let altered := st.alteredProps ++ [prop]
  { alteredProps := altered,
    queuedFlushes :=
      st.queuedFlushes + (if altered.length = 1 then 1 else 0) }

/-- All property-change callbacks of one tick, run synchronously in
order, starting from the idle state (empty pending list, nothing
queued). -/
def runTickChanges (props : List String) : BatchState :=
  props.foldl batchPropertyChange ⟨[], 0⟩

/-- The queued microtask: `listener(alteredProps.slice());
alteredProps.length = 0`.  Returns the list delivered to the listener
and the state after the flush. -/
def flushBatch (st : BatchState) : List String × BatchState :=
  (st.alteredProps, ⟨[], st.queuedFlushes - 1⟩)

/-! ## VertexBuilder: range bookkeeping

From `packages/genome-spy/src/gl/dataToVertices.js`.  The backing
`ArrayBuilder` (`gl/arrayBuilder.js`, a sibling file) only appends one
vertex — the current pending attribute values — per `pushAll` /
`pushFromDatum` call; the vertex buffer is embedded as the list of
pushed vertices, abstract in the vertex type. -/

/-- A `RangeEntry`: location of a batch inside the vertex array. -/
structure RangeEntry where
  offset : Nat
  count : Nat
deriving DecidableEq

/-- A vertex builder's observable state: the appended vertex buffer and
the key → range map. -/
structure VB (V : Type) where
  vertices : List V
  rangeMap : List (String × RangeEntry)

/-- The fresh builder. -/
def VB.empty {V : Type} : VB V := ⟨[], []⟩

/-- The shared `addBatch` bookkeeping (base class lines 123–139; the
subclasses repeat it verbatim around their own per-datum vertex
generation): remember the vertex count as `offset`, emit the vertices
of every datum, and record `(offset, count)` under `key` iff the batch
produced at least one vertex.  `emit` is the per-datum vertex
generation: the base class pushes exactly one vertex per datum
(`pushFromDatum`), the mark-specific builders push zero (skipped datum)
or a fixed number per datum. -/
def addBatchEmit {D V : Type} (emit : D → List V) (vb : VB V) (key : String)
    (points : List D) : VB V :=
  let offset := vb.vertices.length
  let vertices := vb.vertices ++ points.flatMap emit
  let count := vertices.length - offset
  { vertices := vertices,
    rangeMap :=
      if count ≠ 0 then assocSet vb.rangeMap key ⟨offset, count⟩
      else vb.rangeMap }

/-- Method `VertexBuilder.addBatch(key, points)` (lines 123–139): one vertex
per datum, pushed by `pushFromDatum` through the converters
(`toVertex`). -/
def VertexBuilder.addBatch {D V : Type} (toVertex : D → V) (vb : VB V)
    (key : String) (points : List D) : VB V :=
  addBatchEmit (fun d => [toVertex d]) vb key points

/-- Method `toArrays()` (lines 141–157), restricted to the observables the
claims speak about: the total vertex count and the range map (the
merged attribute arrays and component widths are carried by the
abstract vertex type). -/
def VertexBuilder.toArrays {V : Type} (vb : VB V) :
    Nat × List (String × RangeEntry) :=
  (vb.vertices.length, vb.rangeMap)

/-- Sum of the counts of a list of range entries. -/
def sumCounts (entries : List RangeEntry) : Nat :=
  (entries.map RangeEntry.count).sum

/-- Predicate `contiguous start entries`: the entries tile `[start, …)` back to
back — each offset is the end of the previous range. -/
def contiguous : Nat → List RangeEntry → Bool
  | _, [] => true
  | start, e :: rest => e.offset == start && contiguous (start + e.count) rest

/-- The ranges partition the vertex buffer `[0, total)` in order,
without gaps or overlaps. -/
def rangesPartition (entries : List RangeEntry) (total : Nat) : Prop :=
  contiguous 0 entries = true ∧ sumCounts entries = total

/-! ## RectVertexBuilder

`RectVertexBuilder.addBatch` (lines 209–331) drives the attributes
`x`, `y`, `width`, `height` through dedicated updaters while the
remaining attributes come from the datum (`updateFromDatum`); each
`pushAll` snapshots the current pending attribute values as one vertex.
A pending value persists until overwritten, so per-datum generation is a
state transformer on the pending vertex. -/

/-- The `squeeze` channel value; the JS encoder yields a string, with a
falsy / `"none"` value meaning no squeeze. -/
inductive Squeeze where
  | none : Squeeze
  | bottom : Squeeze
  | top : Squeeze
  | left : Squeeze
  | right : Squeeze
deriving DecidableEq

/-- The pending (and pushed) attribute values of the rect builder:
the datum-driven attributes (abstract, as the datum last applied by
`updateFromDatum`) and the four updater-driven numeric attributes. -/
structure RectVertex (D : Type) where
  datum : D
  x : ℚ
  y : ℚ
  width : ℚ
  height : ℚ
deriving DecidableEq

/-- Method `_squeeze(squeeze, x, x2, y, y2)` (lines 341–381).  The JS object
`(ax, ay, bx, by, cx, cy)` is grouped into the three corner points
`a`, `b`, `c` because `by` is reserved in Lean.  The `default` branch of
the source returns `undefined` and is unreachable (the caller guards
`squeeze != "none"`); the embedding returns corner `a` three times
there. -/
structure SqueezeCoords where
  a : ℚ × ℚ
  b : ℚ × ℚ
  c : ℚ × ℚ
deriving DecidableEq

def squeezeCoords (squeeze : Squeeze) (x x2 y y2 : ℚ) : SqueezeCoords :=
  match squeeze with
  | Squeeze.bottom => ⟨(x, y2), ((x + x2) / 2, y), (x2, y2)⟩
  | Squeeze.top => ⟨(x, y), (x2, y), ((x + x2) / 2, y2)⟩
  | Squeeze.left => ⟨(x, (y + y2) / 2), (x2, y), (x2, y2)⟩
  | Squeeze.right => ⟨(x, y), (x2, (y + y2) / 2), (x, y2)⟩
  | Squeeze.none => ⟨(x, y), (x, y), (x, y)⟩

/-- The swap normalization applied to both coordinate pairs:
`if (a > b) [a, b] = [b, a]` (lines 232–234 and 248–250). -/
def normPair (a b : ℚ) : ℚ × ℚ :=
  if a > b then (b, a) else (a, b)

/-- The vertex emission for one datum once the x extent has been
normalized and clamped (source lines 245–320): normalize `y`/`y2`,
compute `width`/`height`, apply `updateFromDatum`, then either the
squeeze triangle (5 pushes: a, a, b, c, c) or the strip segment
(6 pushes: start duplicate, the tile loop with the fixed
`tileCount = 1` unrolled for `i = 0, 1`, end duplicate).  Returns the
final pending state and the pushed vertices in order. -/
def rectEmitClipped {D : Type} (sqf : D → Squeeze) (pend : RectVertex D)
    (d : D) (x x2 yr y2r : ℚ) : RectVertex D × List (RectVertex D) :=
  let yp := normPair yr y2r
  let y := yp.1
  let y2 := yp.2
  let width := x2 - x
  let height := y2 - y
  let pend := { pend with datum := d }
  let sq := sqf d
  if sq ≠ Squeeze.none then
    let c := squeezeCoords sq x x2 y y2
    let pa := { pend with x := c.a.1, y := c.a.2 }
    let pb := { pa with x := c.b.1, y := c.b.2 }
    let pc := { pb with x := c.c.1, y := c.c.2 }
    (pc, [pa, pa, pb, pc, pc])
  else
    let p1 := { pend with x := x, width := -width, y := y, height := -height }
    -- tile i = 0: w = -width, frac = 0, tx = x + width * 0
    let p2 := { p1 with width := -width, x := x + width * 0, y := y,
                        height := -height }
    let p3 := { p2 with y := y2, height := height }
    -- tile i = 1: w = width, frac = 1, tx = x + width * 1 (the source's
    -- Infinity branch for a non-finite width is unreachable over ℚ)
    let p4 := { p3 with width := width, x := x + width * 1, y := y,
                        height := -height }
    let p5 := { p4 with y := y2, height := height }
    -- end duplicate: updateFromDatum(d), then x2 / width / height / y2
    let p6 := { p5 with datum := d, x := x2, width := width,
                        height := height, y := y2 }
    (p6, [p1, p2, p3, p4, p5, p6])

/-- Per-datum processing of `RectVertexBuilder.addBatch`
(lines 228–321), on already-extracted channel values: normalize
`x > x2` by swapping, skip the datum when the normalized extent falls
outside the visible range `[lower, upper]`, truncate a partially
visible extent to the range, then emit. -/
def rectProcessCoords {D : Type} (lower upper : ℚ) (sqf : D → Squeeze)
    (pend : RectVertex D) (d : D) (x x2 yr y2r : ℚ) :
    RectVertex D × List (RectVertex D) :=
  let xp := normPair x x2
  let xs := xp.1
  let x2s := xp.2
  if x2s < lower ∨ xs > upper then (pend, [])
  else
    rectEmitClipped sqf pend d (if xs < lower then lower else xs)
      (if x2s > upper then upper else x2s) yr y2r

/-- One datum of `RectVertexBuilder.addBatch`, reading the channel
values through the raw accessors resolved at the top of the method. -/
def rectProcessDatum {D : Type} (lower upper : ℚ) (sqf : D → Squeeze)
    (xa x2a ya y2a : D → ℚ) (pend : RectVertex D) (d : D) :
    RectVertex D × List (RectVertex D) :=
  rectProcessCoords lower upper sqf pend d (xa d) (x2a d) (ya d) (y2a d)

/-- Method `RectVertexBuilder.addBatch(key, data)`: fold the per-datum
processing over the batch, threading the pending state, with the shared
range bookkeeping (offset before, `(offset, count)` recorded iff the
batch produced vertices). -/
def RectVertexBuilder.addBatch {D : Type} (lower upper : ℚ)
    (sqf : D → Squeeze) (xa x2a ya y2a : D → ℚ)
    (st : VB (RectVertex D) × RectVertex D) (key : String) (data : List D) :
    VB (RectVertex D) × RectVertex D :=
  let offset := st.1.vertices.length
  let r := data.foldl
    (fun acc d =>
      let pr := rectProcessDatum lower upper sqf xa x2a ya y2a acc.1 d
      (pr.1, acc.2 ++ pr.2))
    (st.2, ([] : List (RectVertex D)))
  let vertices := st.1.vertices ++ r.2
  let count := vertices.length - offset
  ({ vertices := vertices,
     rangeMap :=
       if count ≠ 0 then assocSet st.1.rangeMap key ⟨offset, count⟩
       else st.1.rangeMap }, r.1)

/-! ## Sample-facet transition mapping

The GLSL functions `isFacetedSamples`, `isInTransit` and
`applySampleFacet` over the uniform
`uSampleFacet = (leftPos, leftHeight, rightPos, rightHeight)` and
`uTransitionOffset`, embedded over `ℚ`. -/

/-- The `uSampleFacet` uniform. -/
structure SampleFacetUniform where
  leftPos : ℚ
  leftHeight : ℚ
  rightPos : ℚ
  rightHeight : ℚ
deriving DecidableEq

/-- GLSL `isFacetedSamples()`: `uSampleFacet != vec4(0.0, 1.0, 0.0, 1.0)`. -/
def isFacetedSamples (u : SampleFacetUniform) : Bool :=
  decide (u ≠ ⟨0, 1, 0, 1⟩)

/-- GLSL `isInTransit()`: `uSampleFacet.xy != uSampleFacet.zw`. -/
def isInTransit (u : SampleFacetUniform) : Bool :=
  decide ((u.leftPos, u.leftHeight) ≠ (u.rightPos, u.rightHeight))

/-- GLSL `clamp`. -/
def clampQ (x lo hi : ℚ) : ℚ := min (max x lo) hi

/-- GLSL `smoothstep(edge0, edge1, x)`. -/
def smoothstepQ (e0 e1 x : ℚ) : ℚ :=
  let t := clampQ ((x - e0) / (e1 - e0)) 0 1
  t * t * (3 - 2 * t)

/-- GLSL `mix(a, b, t)`. -/
def mixQ (a b t : ℚ) : ℚ := a * (1 - t) + b * t

/-- GLSL `applySampleFacet(pos)`: identity when unfaceted; otherwise map the
vertical coordinate affinely by the (possibly transition-interpolated)
`(pos, height)` pair. -/
def applySampleFacet (u : SampleFacetUniform) (uTransitionOffset : ℚ)
    (pos : ℚ × ℚ) : ℚ × ℚ :=
  if !isFacetedSamples u then pos
  else
    let left := (u.leftPos, u.leftHeight)
    let right := (u.rightPos, u.rightHeight)
    let interpolated :=
      if isInTransit u then
        let fraction :=
          smoothstepQ 0 (7 / 10 + uTransitionOffset)
            ((pos.1 - uTransitionOffset) * 2)
        (mixQ left.1 right.1 fraction, mixQ left.2 right.2 fraction)
      else left
    (pos.1, interpolated.1 + pos.2 * interpolated.2)

/-- The batches that contribute at least one vertex (a batch whose
items are all skipped records no range). -/
def effectiveBatches {D V : Type} (emit : D → List V)
    (batches : List (String × List D)) : List (String × List D) :=
  batches.filter (fun b => !(b.2.flatMap emit).isEmpty)

/-- The range entries produced by a sequence of `addBatch` calls
starting at vertex offset `start`: each batch that emits `n ≠ 0`
vertices appends `(key, (start, n))` and advances the offset by `n`. -/
def mkEntries {D V : Type} (emit : D → List V) :
    Nat → List (String × List D) → List (String × RangeEntry)
  | _, [] => []
  | start, (k, pts) :: rest =>
    let n := (pts.flatMap emit).length
    if n ≠ 0 then (k, ⟨start, n⟩) :: mkEntries emit (start + n) rest
    else mkEntries emit start rest

/-- A concrete mediator used to witness the setter specification. -/
def witMed : Med :=
  ⟨[("opacity", Value.num 5)], [("opacity", [1, 2])], ["opacity"]⟩

/-! ## Helper lemmas -/

@[simp] theorem assocGet_nil {α : Type} (key : String) :
    assocGet ([] : List (String × α)) key = none := rfl

@[simp] theorem assocGet_cons {α : Type} (k key : String) (v : α)
    (rest : List (String × α)) :
    assocGet ((k, v) :: rest) key =
      if k = key then some v else assocGet rest key := rfl

theorem assocGet_assocSet {α : Type} (m : List (String × α)) (k k' : String)
    (v : α) :
    assocGet (assocSet m k v) k' = if k = k' then some v else assocGet m k' := by
  induction m with
  | nil =>
    by_cases h : k = k' <;> simp [assocSet, assocGet, h]
  | cons hd tl ih =>
    obtain ⟨k₀, v₀⟩ := hd
    by_cases h0 : k₀ = k
    · subst h0
      by_cases h1 : k₀ = k' <;> simp [assocSet, assocGet, h1]
    · simp only [assocSet, if_neg h0]
      by_cases h1 : k₀ = k'
      · subst h1
        have : ¬ k = k₀ := fun h => h0 h.symm
        simp [assocGet, this]
      · simp [assocGet, h1, ih]

@[simp] theorem updateAt_nil {α : Type} (n : Nat) (f : α → α) :
    updateAt [] n f = [] := rfl

theorem length_updateAt {α : Type} (l : List α) (n : Nat) (f : α → α) :
    (updateAt l n f).length = l.length := by
  induction l generalizing n with
  | nil => rfl
  | cons a l ih =>
    cases n with
    | zero => simp [updateAt]
    | succ n => simp [updateAt, ih]

theorem getElem?_updateAt {α : Type} (l : List α) (n : Nat) (f : α → α)
    (i : Nat) :
    (updateAt l n f)[i]? = if i = n then (l[i]?).map f else l[i]? := by
  induction l generalizing n i with
  | nil => simp [updateAt]
  | cons a l ih =>
    cases n with
    | zero =>
      cases i with
      | zero => simp [updateAt]
      | succ i => simp [updateAt]
    | succ n =>
      cases i with
      | zero => simp [updateAt]
      | succ i =>
        simp only [updateAt, List.getElem?_cons_succ, ih]
        by_cases h : i = n <;> simp [h]

theorem getValueJS_eq (m : Med) (name : String) :
    getValueJS m name = (getValue m name).getD Value.undef := rfl

/-! ## C9: sample-facet transition mapping -/

/-- C9: `isFaceted` is false iff the tuple equals `(0,1,0,1)`;
`inTransit` is false iff the left pair equals the right pair; `place`
is the identity when not faceted; when faceted and not in transit it
maps `y` to `leftPos + y * leftHeight`, leaving the horizontal
coordinate unchanged. -/
theorem sampleFacet_place_spec (u : SampleFacetUniform) (off : ℚ)
    (pos : ℚ × ℚ) :
    (isFacetedSamples u = false ↔ u = ⟨0, 1, 0, 1⟩)
    ∧ (isInTransit u = false ↔
        (u.leftPos, u.leftHeight) = (u.rightPos, u.rightHeight))
    ∧ (isFacetedSamples u = false → applySampleFacet u off pos = pos)
    ∧ (isFacetedSamples u = true → isInTransit u = false →
        applySampleFacet u off pos = (pos.1, u.leftPos + pos.2 * u.leftHeight)) := by
  refine ⟨?_, ?_, ?_, ?_⟩
  · simp [isFacetedSamples]
  · simp [isInTransit]
  · intro h
    simp [applySampleFacet, h]
  · intro h1 h2
    simp [applySampleFacet, h1, h2]

/-- Witness for C9: the tuple `(0,2,0,2)` is faceted and not in
transit, and `place (3,5)` maps the vertical coordinate affinely. -/
theorem sampleFacet_place_spec_witness :
    isFacetedSamples ⟨0, 2, 0, 2⟩ = true ∧ isInTransit ⟨0, 2, 0, 2⟩ = false ∧
    applySampleFacet ⟨0, 2, 0, 2⟩ 0 (3, 5) = (3, 0 + 5 * 2) :=
  ⟨by decide, by decide,
    (sampleFacet_place_spec ⟨0, 2, 0, 2⟩ 0 (3, 5)).2.2.2 (by decide) (by decide)⟩

/-! ## C5: deferred property-change batching -/

theorem foldl_batchPropertyChange_pending (props : List String)
    (st : BatchState) (h : st.alteredProps ≠ []) :
    props.foldl batchPropertyChange st =
      ⟨st.alteredProps ++ props, st.queuedFlushes⟩ := by
  induction props generalizing st with
  | nil => simp
  | cons p rest ih =>
    have hstep : batchPropertyChange st p =
        ⟨st.alteredProps ++ [p], st.queuedFlushes⟩ := by
      simp [batchPropertyChange, h]
    rw [List.foldl_cons, hstep,
      ih ⟨st.alteredProps ++ [p], st.queuedFlushes⟩ (by simp [h])]
    simp

/-- C5 counterexample: when the same property's listener fires twice in
one tick (e.g. two upstream parameter changes), the delivered list is
the raw accumulated list and contains the property twice — it is not
deduplicated. -/
theorem batchPropertyChange_no_dedup_counterexample :
    (flushBatch (runTickChanges ["opacity", "opacity"])).1
      = ["opacity", "opacity"]
    ∧ ¬ (flushBatch (runTickChanges ["opacity", "opacity"])).1.Nodup := by
  constructor
  · rfl
  · decide

/-- C5 (amended): in a tick with at least one change, the first change
queues exactly one deferred flush, later changes only append to the one
pending list, and the flush delivers the accumulated list (in occurrence
order, a property possibly appearing more than once) exactly once,
clearing the pending list. -/
theorem batchPropertyChange_single_flush (props : List String)
    (h : props ≠ []) :
    (runTickChanges props).queuedFlushes = 1
    ∧ (runTickChanges props).alteredProps = props
    ∧ (flushBatch (runTickChanges props)).1 = props
    ∧ (flushBatch (runTickChanges props)).2 = ⟨[], 0⟩ := by
  obtain ⟨p, rest, rfl⟩ := List.exists_cons_of_ne_nil h
  have hstep : batchPropertyChange ⟨[], 0⟩ p = ⟨[p], 1⟩ := by
    simp [batchPropertyChange]
  have : runTickChanges (p :: rest) = ⟨p :: rest, 1⟩ := by
    unfold runTickChanges
    rw [List.foldl_cons, hstep, foldl_batchPropertyChange_pending _ _ (by simp)]
    simp
  rw [this]
  exact ⟨rfl, rfl, rfl, rfl⟩

/-- Witness for C5's amended theorem at a two-change tick. -/
theorem batchPropertyChange_single_flush_witness :
    (runTickChanges ["width", "height"]).queuedFlushes = 1
    ∧ (flushBatch (runTickChanges ["width", "height"])).1
        = ["width", "height"] :=
  ⟨(batchPropertyChange_single_flush ["width", "height"] (by decide)).1,
    (batchPropertyChange_single_flush ["width", "height"] (by decide)).2.2.1⟩

/-! ## C2: allocated-setter change notification -/

/-- C2: invoking an allocated setter with a value identical (JS `!==`)
to the currently stored one fires no listener and leaves the mediator
unchanged; invoking it with a different value stores the value and then
invokes exactly the listeners registered for the name, each once, in
registration order. -/
theorem allocateSetter_setter_spec (m : Med) (name : String) (value : Value)
    (hnd : (listenersFor m name).Nodup) :
    (value = getValueJS m name → setterCall m name value = (m, []))
    ∧ (value ≠ getValueJS m name →
        (setterCall m name value).1 =
          { m with paramValues := assocSet m.paramValues name value }
        ∧ getValue (setterCall m name value).1 name = some value
        ∧ (setterCall m name value).2 = listenersFor m name
        ∧ (∀ l ∈ listenersFor m name, (setterCall m name value).2.count l = 1)
        ∧ (∀ l, l ∉ listenersFor m name →
            (setterCall m name value).2.count l = 0)) := by
  constructor
  · intro h
    simp [setterCall, h]
  · intro h
    have hif : setterCall m name value =
        ({ m with paramValues := assocSet m.paramValues name value },
          listenersFor m name) := by
      simp [setterCall, h]
    rw [hif]
    refine ⟨rfl, ?_, rfl, ?_, ?_⟩
    · simp [getValue, assocGet_assocSet]
    · intro l hl
      exact List.count_eq_one_of_mem hnd hl
    · intro l hl
      exact List.count_eq_zero_of_not_mem hl


/-- Witness for C2: setting the stored value `5` again is silent;
setting `7` stores it and fires listeners `[1, 2]` in order. -/
theorem allocateSetter_setter_spec_witness :
    (listenersFor witMed "opacity").Nodup
    ∧ setterCall witMed "opacity" (Value.num 5) = (witMed, [])
    ∧ (setterCall witMed "opacity" (Value.num 7)).2 = [1, 2]
    ∧ getValue (setterCall witMed "opacity" (Value.num 7)).1 "opacity"
        = some (Value.num 7) := by
  have T5 := allocateSetter_setter_spec witMed "opacity" (Value.num 5)
    (by decide)
  have T7 := allocateSetter_setter_spec witMed "opacity" (Value.num 7)
    (by decide)
  exact ⟨by decide, T5.1 (by decide), (T7.2 (by decide)).2.2.1,
    (T7.2 (by decide)).2.1⟩

/-! ## C4: expression-backed parameters and `getSetter`

`registerParam` with an `expr` seeds the parameter with the
expression's initial evaluation and returns a no-op setter — but the
*real* setter is stored in `#allocatedSetters`, so `getSetter` hands it
out and the parameter's value can be changed externally after all (the
source's own TODO at lines 68–69 says `getSetter` should return a
setter that throws). -/

/-- C4 exhibit: registering `(name p, expr 2)` on an empty mediator
seeds `p` with `2` and returns the no-op setter (which indeed changes
nothing) — yet `getSetter("p")` succeeds and invoking the real setter
it returns with `42` changes the expression-backed parameter's value. -/
theorem registerParam_expr_getSetter_escape :
    registerParam [(⟨[], [], []⟩ : Med)]
        ⟨"p", Option.none, some (Expr.lit (Value.num 2))⟩ 7
      = Except.ok (Setter.nop, [⟨[("p", Value.num 2)], [], ["p"]⟩])
    ∧ applySetter Setter.nop (⟨[("p", Value.num 2)], [], ["p"]⟩ : Med)
        (Value.num 42)
      = (⟨[("p", Value.num 2)], [], ["p"]⟩, [])
    ∧ getSetter (⟨[("p", Value.num 2)], [], ["p"]⟩ : Med) "p"
        = Except.ok "p"
    ∧ getValue (applySetter (Setter.real "p")
        (⟨[("p", Value.num 2)], [], ["p"]⟩ : Med) (Value.num 42)).1 "p"
      = some (Value.num 42) :=
  ⟨rfl, rfl, rfl, rfl⟩

/-! ## C1: getValue / findValue scoping -/

theorem findMediatorIdx_eq_none (chain : List Med) (name : String)
    (h : ∀ m ∈ chain, owns m name = false) :
    findMediatorIdx chain name = none := by
  induction chain with
  | nil => rfl
  | cons m rest ih =>
    have hm := h m (by simp)
    have hrest := ih fun m' hm' => h m' (by simp [hm'])
    simp [findMediatorIdx, hm, hrest]

theorem findMediatorIdx_eq_some (chain : List Med) (name : String)
    (i : Nat) (m : Med) (hm : chain[i]? = some m) (hown : owns m name = true)
    (hbefore : ∀ j mj, j < i → chain[j]? = some mj → owns mj name = false) :
    findMediatorIdx chain name = some i := by
  induction chain generalizing i with
  | nil => simp at hm
  | cons m0 rest ih =>
    cases i with
    | zero =>
      simp only [List.getElem?_cons_zero, Option.some.injEq] at hm
      subst hm
      simp [findMediatorIdx, hown]
    | succ i =>
      have h0 : owns m0 name = false :=
        hbefore 0 m0 (Nat.succ_pos i) (by simp)
      have hrest : findMediatorIdx rest name = some i := by
        refine ih i (by simpa using hm) ?_
        intro j mj hj hjm
        exact hbefore (j + 1) mj (by omega) (by simpa using hjm)
      simp [findMediatorIdx, h0, hrest]

/-- C1: `getValue` reads only the local value store; `findValue`
returns the value of the nearest mediator on the parent chain
(including self) that owns the name, or is unresolved when no mediator
on the chain owns it; a sibling's registration (a mediator not on the
chain) is never visible. -/
theorem paramMediator_scoping (chain : List Med) (name : String) :
    (∀ m₁ m₂ : Med, m₁.paramValues = m₂.paramValues →
        getValue m₁ name = getValue m₂ name)
    ∧ ((∀ m ∈ chain, owns m name = false) → findValue chain name = none)
    ∧ (∀ (i : Nat) (m : Med), chain[i]? = some m → owns m name = true →
        (∀ (j : Nat) (mj : Med), j < i → chain[j]? = some mj →
          owns mj name = false) →
        findValue chain name = getValue m name)
    ∧ (∀ (mA mB : Med) (P : List Med) (v : Value),
        getValue mA name = some v → owns mB name = false →
        (∀ m ∈ P, owns m name = false) →
        findValue (mB :: P) name = none) := by
  refine ⟨?_, ?_, ?_, ?_⟩
  · intro m₁ m₂ h
    simp [getValue, h]
  · intro h
    simp [findValue, findMediatorIdx_eq_none chain name h]
  · intro i m hm hown hbefore
    have hidx := findMediatorIdx_eq_some chain name i m hm hown hbefore
    simp [findValue, hidx, hm]
  · intro mA mB P v _ hB hP
    have : ∀ m ∈ mB :: P, owns m name = false := by
      intro m hmem
      rcases List.mem_cons.mp hmem with h | h
      · exact h ▸ hB
      · exact hP m h
    simp [findValue, findMediatorIdx_eq_none (mB :: P) name this]

/-- Witness for C1: sibling `A` under parent `P` owns `"threshold" = 10`
while sibling `B` does not; `findValue` on `B`'s chain is unresolved. -/
theorem paramMediator_scoping_witness :
    getValue (⟨[("threshold", Value.num 10)], [], ["threshold"]⟩ : Med)
        "threshold" = some (Value.num 10)
    ∧ findValue [(⟨[], [], []⟩ : Med), (⟨[], [], []⟩ : Med)] "threshold"
        = none :=
  ⟨by decide,
    (paramMediator_scoping [⟨[], [], []⟩, ⟨[], [], []⟩] "threshold").2.2.2
      ⟨[("threshold", Value.num 10)], [], ["threshold"]⟩ ⟨[], [], []⟩
      [⟨[], [], []⟩] (Value.num 10) (by decide) (by decide) (by decide)⟩

/-! ## C10: allocating a setter with `undefined` stores nothing -/

/-- C10: `allocateSetter(name, undefined)` on a fresh name succeeds and
returns a setter, but the initial invocation stores no entry (the new
value is identical to the `undefined` read for the absent key), so
`findValue` stays unresolved on the chain and compiling an expression
referencing the name throws the unknown-variable error; once the setter
is invoked with a value different from `undefined`, the value is stored
and the parameter resolves on the chain. -/
theorem allocateSetter_undefined_pending (m : Med) (rest : List Med)
    (name : String)
    (h1 : name ∉ m.allocatedSetters)
    (h2 : assocGet m.paramValues name = none)
    (h3 : ∀ med ∈ rest, owns med name = false) :
    allocateSetter m name Value.undef =
      Except.ok
        ({ m with allocatedSetters := m.allocatedSetters ++ [name] }, [])
    ∧ findValue
        ({ m with allocatedSetters := m.allocatedSetters ++ [name] } :: rest)
        name = none
    ∧ createExpressionBindings
        ({ m with allocatedSetters := m.allocatedSetters ++ [name] } :: rest)
        (Expr.var name)
      = Except.error ("Unknown variable in expression: " ++ name)
    ∧ ∀ v : Value, v ≠ Value.undef →
        findValue
          ((setterCall
              { m with allocatedSetters := m.allocatedSetters ++ [name] }
              name v).1 :: rest) name = some v
        ∧ createExpressionBindings
            ((setterCall
                { m with allocatedSetters := m.allocatedSetters ++ [name] }
                name v).1 :: rest) (Expr.var name)
          = Except.ok [(name, 0)] := by
  have hown : ∀ med ∈
      ({ m with allocatedSetters := m.allocatedSetters ++ [name] } :: rest),
      owns med name = false := by
    intro med hmed
    rcases List.mem_cons.mp hmed with h | h
    · subst h
      simp [owns, assocHas, h2]
    · exact h3 med h
  have hidxnone := findMediatorIdx_eq_none _ name hown
  refine ⟨?_, ?_, ?_, ?_⟩
  · simp [allocateSetter, h1, setterCall, getValueJS, h2]
  · simp [findValue, hidxnone]
  · simp [createExpressionBindings, exprGlobals, resolveGlobals, hidxnone]
  · intro v hv
    have hprev : getValueJS
        { m with allocatedSetters := m.allocatedSetters ++ [name] } name
        = Value.undef := by
      simp [getValueJS, h2]
    have hstep : (setterCall
        { m with allocatedSetters := m.allocatedSetters ++ [name] }
        name v).1
        = { m with paramValues := assocSet m.paramValues name v,
                   allocatedSetters := m.allocatedSetters ++ [name] } := by
      simp [setterCall, hprev, hv]
    rw [hstep]
    have hget : assocGet (assocSet m.paramValues name v) name = some v := by
      simp [assocGet_assocSet]
    have hownv : owns
        { m with paramValues := assocSet m.paramValues name v,
                 allocatedSetters := m.allocatedSetters ++ [name] } name
        = true := by
      simp [owns, assocHas, hget]
    have hidx : findMediatorIdx
        ({ m with paramValues := assocSet m.paramValues name v,
                  allocatedSetters := m.allocatedSetters ++ [name] } :: rest)
        name = some 0 := by
      simp [findMediatorIdx, hownv]
    constructor
    · simp [findValue, hidx, getValue, hget]
    · simp [createExpressionBindings, exprGlobals, resolveGlobals, hidx,
        Except.map]

/-- Witness for C10 on an empty mediator with no ancestors and the
parameter `"s"` later set to `1`. -/
theorem allocateSetter_undefined_pending_witness :
    allocateSetter (⟨[], [], []⟩ : Med) "s" Value.undef
      = Except.ok (⟨[], [], ["s"]⟩, [])
    ∧ findValue [(⟨[], [], ["s"]⟩ : Med)] "s" = none
    ∧ findValue
        [(setterCall (⟨[], [], ["s"]⟩ : Med) "s" (Value.num 1)).1] "s"
      = some (Value.num 1) := by
  have T := allocateSetter_undefined_pending ⟨[], [], []⟩ [] "s"
    (by decide) (by decide) (by intro med hmed; simp at hmed)
  exact ⟨T.1, T.2.1, (T.2.2.2 (Value.num 1) (by decide)).1⟩

/-! ## C7: swap normalization commutes with rect vertex generation -/

theorem normPair_comm (a b : ℚ) : normPair a b = normPair b a := by
  unfold normPair
  rcases lt_trichotomy a b with h | h | h
  · have h1 : ¬ a > b := not_lt.mpr h.le
    have h2 : b > a := h
    simp [h1, h2]
  · subst h
    simp
  · have h1 : a > b := h
    have h2 : ¬ b > a := not_lt.mpr h.le
    simp [h1, h2]

theorem normPair_fst_le_snd (a b : ℚ) : (normPair a b).1 ≤ (normPair a b).2 := by
  unfold normPair
  by_cases h : a > b
  · simp [h, h.le]
  · simp [h, not_lt.mp h]

theorem rectEmitClipped_yswap {D : Type} (sqf : D → Squeeze)
    (pend : RectVertex D) (d : D) (x x2 yr y2r : ℚ) :
    rectEmitClipped sqf pend d x x2 y2r yr =
      rectEmitClipped sqf pend d x x2 yr y2r := by
  unfold rectEmitClipped
  rw [normPair_comm y2r yr]

theorem rectProcessCoords_yswap {D : Type} (lower upper : ℚ)
    (sqf : D → Squeeze) (pend : RectVertex D) (d : D) (x x2 yr y2r : ℚ) :
    rectProcessCoords lower upper sqf pend d x x2 y2r yr =
      rectProcessCoords lower upper sqf pend d x x2 yr y2r := by
  simp only [rectProcessCoords]
  rw [rectEmitClipped_yswap]

theorem rectProcessCoords_xswap {D : Type} (lower upper : ℚ)
    (sqf : D → Squeeze) (pend : RectVertex D) (d : D) (x x2 yr y2r : ℚ) :
    rectProcessCoords lower upper sqf pend d x2 x yr y2r =
      rectProcessCoords lower upper sqf pend d x x2 yr y2r := by
  simp only [rectProcessCoords]
  rw [normPair_comm x2 x]

/-- C7: for a datum with `x > x2` or `y > y2`, the vertices produced by
the rect per-datum generation are identical to those produced for the
same datum with the offending coordinate pair(s) pre-swapped. -/
theorem rect_swap_normalization {D : Type} (lower upper : ℚ)
    (sqf : D → Squeeze) (pend : RectVertex D) (d : D) (x x2 y y2 : ℚ)
    (h : x > x2 ∨ y > y2) :
    rectProcessCoords lower upper sqf pend d x x2 y y2 =
      rectProcessCoords lower upper sqf pend d
        (if x > x2 then x2 else x) (if x > x2 then x else x2)
        (if y > y2 then y2 else y) (if y > y2 then y else y2) := by
  by_cases hx : x > x2 <;> by_cases hy : y > y2
  · rw [if_pos hx, if_pos hx, if_pos hy, if_pos hy]
    exact ((rectProcessCoords_xswap lower upper sqf pend d x x2 y2 y).trans
      (rectProcessCoords_yswap lower upper sqf pend d x x2 y y2)).symm
  · rw [if_pos hx, if_pos hx, if_neg hy, if_neg hy]
    exact (rectProcessCoords_xswap lower upper sqf pend d x x2 y y2).symm
  · rw [if_neg hx, if_neg hx, if_pos hy, if_pos hy]
    exact (rectProcessCoords_yswap lower upper sqf pend d x x2 y y2).symm
  · rcases h with h | h
    · exact absurd h hx
    · exact absurd h hy

/-- Witness for C7 at the datum `x = 10 > x2 = 0`. -/
theorem rect_swap_normalization_witness :
    ((10 : ℚ) > 0 ∨ (0 : ℚ) > 1)
    ∧ rectProcessCoords (-100) 100 (fun _ : Unit => Squeeze.none)
        ⟨(), 0, 0, 0, 0⟩ () 10 0 0 1
      = rectProcessCoords (-100) 100 (fun _ : Unit => Squeeze.none)
          ⟨(), 0, 0, 0, 0⟩ ()
          (if (10 : ℚ) > 0 then 0 else 10) (if (10 : ℚ) > 0 then 10 else 0)
          (if (0 : ℚ) > 1 then 1 else 0) (if (0 : ℚ) > 1 then 0 else 1) :=
  ⟨Or.inl (by norm_num),
    rect_swap_normalization (-100) 100 (fun _ : Unit => Squeeze.none)
      ⟨(), 0, 0, 0, 0⟩ () 10 0 0 1 (Or.inl (by norm_num))⟩

/-! ## C8: visible-range clipping -/

theorem ite_lt_eq_max (a l : ℚ) : (if a < l then l else a) = max a l := by
  by_cases h : a < l
  · rw [if_pos h, max_eq_right h.le]
  · rw [if_neg h, max_eq_left (not_lt.mp h)]

theorem ite_gt_eq_min (b u : ℚ) : (if b > u then u else b) = min b u := by
  by_cases h : b > u
  · rw [if_pos h, min_eq_right h.le]
  · rw [if_neg h, min_eq_left (not_lt.mp h)]

/-- C8: after x-normalization, a rect datum whose extent is fully
outside the visible range `[lower, upper]` contributes zero vertices; a
partially outside extent is clamped to the range before vertex
generation; an extent inside the range reaches vertex generation
unchanged. -/
theorem rect_visible_range_clip {D : Type} (lower upper : ℚ)
    (sqf : D → Squeeze) (pend : RectVertex D) (d : D) (x x2 y y2 : ℚ) :
    ((normPair x x2).2 < lower ∨ (normPair x x2).1 > upper →
      rectProcessCoords lower upper sqf pend d x x2 y y2 = (pend, []))
    ∧ (¬ ((normPair x x2).2 < lower ∨ (normPair x x2).1 > upper) →
      rectProcessCoords lower upper sqf pend d x x2 y y2
        = rectEmitClipped sqf pend d (max (normPair x x2).1 lower)
            (min (normPair x x2).2 upper) y y2)
    ∧ (lower ≤ (normPair x x2).1 → (normPair x x2).2 ≤ upper →
      rectProcessCoords lower upper sqf pend d x x2 y y2
        = rectEmitClipped sqf pend d (normPair x x2).1 (normPair x x2).2
            y y2) := by
  refine ⟨?_, ?_, ?_⟩
  · intro h
    simp only [rectProcessCoords]
    rw [if_pos h]
  · intro h
    simp only [rectProcessCoords]
    rw [if_neg h, ite_lt_eq_max, ite_gt_eq_min]
  · intro h1 h2
    have hxle := normPair_fst_le_snd x x2
    have hno : ¬ ((normPair x x2).2 < lower ∨ (normPair x x2).1 > upper) := by
      push_neg
      exact ⟨le_trans h1 hxle, le_trans hxle h2⟩
    simp only [rectProcessCoords]
    rw [if_neg hno, if_neg (not_lt.mpr h1), if_neg (not_lt.mpr h2)]

/-- Witness for C8: the rect `[0, 10]` against the ranges `[20, 30]`
(fully outside), `[5, 30]` (partially outside) and `[-100, 100]`
(inside). -/
theorem rect_visible_range_clip_witness :
    rectProcessCoords 20 30 (fun _ : Unit => Squeeze.none)
        ⟨(), 0, 0, 0, 0⟩ () 0 10 0 1 = (⟨(), 0, 0, 0, 0⟩, [])
    ∧ rectProcessCoords 5 30 (fun _ : Unit => Squeeze.none)
        ⟨(), 0, 0, 0, 0⟩ () 0 10 0 1
      = rectEmitClipped (fun _ : Unit => Squeeze.none) ⟨(), 0, 0, 0, 0⟩ ()
          (max (normPair 0 10).1 5) (min (normPair 0 10).2 30) 0 1
    ∧ rectProcessCoords (-100) 100 (fun _ : Unit => Squeeze.none)
        ⟨(), 0, 0, 0, 0⟩ () 0 10 0 1
      = rectEmitClipped (fun _ : Unit => Squeeze.none) ⟨(), 0, 0, 0, 0⟩ ()
          (normPair 0 10).1 (normPair 0 10).2 0 1 :=
  ⟨(rect_visible_range_clip 20 30 (fun _ : Unit => Squeeze.none)
      ⟨(), 0, 0, 0, 0⟩ () 0 10 0 1).1 (by norm_num [normPair]),
    (rect_visible_range_clip 5 30 (fun _ : Unit => Squeeze.none)
      ⟨(), 0, 0, 0, 0⟩ () 0 10 0 1).2.1 (by norm_num [normPair]),
    (rect_visible_range_clip (-100) 100 (fun _ : Unit => Squeeze.none)
      ⟨(), 0, 0, 0, 0⟩ () 0 10 0 1).2.2 (by norm_num [normPair])
      (by norm_num [normPair])⟩

/-! ## C3: addListener / invalidate reversibility -/

theorem eraseAll_nil (ms : List Nat) :
    ms.foldl (fun ys l => ys.erase l) [] = [] := by
  induction ms with
  | nil => rfl
  | cons m ms ih => simpa using ih

theorem foldl_erase_append (ls : List Nat) (xs : List Nat)
    (hfresh : ∀ l ∈ ls, l ∉ xs) (hnd : ls.Nodup) :
    ls.foldl (fun ys l => ys.erase l) (xs ++ ls) = xs := by
  induction ls generalizing xs with
  | nil => simp
  | cons l ls ih =>
    rw [List.foldl_cons]
    have h1 : (xs ++ l :: ls).erase l = xs ++ ls := by
      rw [List.erase_append_right _ (hfresh l (by simp)),
        List.erase_cons_head]
    rw [h1]
    exact ih xs (fun l' hl' => hfresh l' (by simp [hl'])) hnd.of_cons


theorem listenersAt_updateAt_ne (chain : List Med) (i0 : Nat) (fm : Med → Med)
    (i : Nat) (g : String) (h : i ≠ i0) :
    listenersAt (updateAt chain i0 fm) i g = listenersAt chain i g := by
  simp [listenersAt, getElem?_updateAt, h]

theorem listenersAt_updateAt_eq (chain : List Med) (i0 : Nat) (fm : Med → Med)
    (g : String) (m0 : Med) (hm0 : chain[i0]? = some m0) :
    listenersAt (updateAt chain i0 fm) i0 g = listenersFor (fm m0) g := by
  simp [listenersAt, getElem?_updateAt, hm0]

theorem listenersFor_addStep (m : Med) (g0 : String) (lid : Nat) (g : String) :
    listenersFor
      { m with
        paramListeners :=
          assocSet m.paramListeners g0
            (insertIdem lid ((assocGet m.paramListeners g0).getD [])) } g =
    if g0 = g then insertIdem lid (listenersFor m g0) else listenersFor m g := by
  by_cases h : g0 = g
  · subst h
    simp [listenersFor, assocGet_assocSet]
  · simp [listenersFor, assocGet_assocSet, h]

theorem listenersFor_invStep (m : Med) (g0 : String) (ms : List Nat)
    (g : String) :
    listenersFor
      { m with
        paramListeners :=
          match assocGet m.paramListeners g0 with
          | none => m.paramListeners
          | some xs =>
            assocSet m.paramListeners g0
              (ms.foldl (fun ys l => ys.erase l) xs) } g =
    if g0 = g then ms.foldl (fun ys l => ys.erase l) (listenersFor m g0)
    else listenersFor m g := by
  cases hx : assocGet m.paramListeners g0 with
  | none =>
    by_cases h : g0 = g
    · subst h
      simp [listenersFor, hx, eraseAll_nil]
    · simp [listenersFor, hx, h]
  | some xs =>
    by_cases h : g0 = g
    · subst h
      simp [listenersFor, hx, assocGet_assocSet]
    · simp [listenersFor, hx, assocGet_assocSet, h]

theorem length_addListenerRegistry (bindings : List (String × Nat))
    (chain : List Med) (lid : Nat) :
    (addListenerRegistry chain bindings lid).length = chain.length := by
  induction bindings generalizing chain with
  | nil => rfl
  | cons b rest ih =>
    simp only [addListenerRegistry]
    rw [ih, length_updateAt]

theorem listenersAt_addListenerRegistry (bindings : List (String × Nat))
    (chain : List Med) (lid : Nat)
    (hkeys : (bindings.map Prod.fst).Nodup)
    (hidx : ∀ b ∈ bindings, b.2 < chain.length) (i : Nat) (g : String) :
    listenersAt (addListenerRegistry chain bindings lid) i g =
      if (g, i) ∈ bindings then insertIdem lid (listenersAt chain i g)
      else listenersAt chain i g := by
  induction bindings generalizing chain with
  | nil => simp [addListenerRegistry]
  | cons b rest ih =>
    obtain ⟨g0, i0⟩ := b
    simp only [List.map_cons, List.nodup_cons] at hkeys
    have hk0 : g0 ∉ rest.map Prod.fst := hkeys.1
    have hi0 : i0 < chain.length := hidx (g0, i0) (by simp)
    have hm0 : chain[i0]? = some chain[i0] := List.getElem?_eq_getElem hi0
    set fm : Med → Med := fun m =>
      { m with
        paramListeners :=
          assocSet m.paramListeners g0
            (insertIdem lid ((assocGet m.paramListeners g0).getD [])) }
      with hfm
    have hstep : ∀ (i' : Nat) (g' : String),
        listenersAt (updateAt chain i0 fm) i' g' =
          if i' = i0 ∧ g' = g0 then insertIdem lid (listenersAt chain i0 g0)
          else listenersAt chain i' g' := by
      intro i' g'
      by_cases h : i' = i0
      · subst h
        rw [listenersAt_updateAt_eq chain i' fm g' chain[i'] hm0, hfm]
        rw [listenersFor_addStep]
        by_cases hg : g0 = g'
        · subst hg
          rw [if_pos rfl, if_pos ⟨rfl, rfl⟩]
          simp [listenersAt, hm0]
        · rw [if_neg hg, if_neg (by intro hc; exact hg hc.2.symm)]
          simp [listenersAt, hm0]
      · rw [listenersAt_updateAt_ne chain i0 fm i' g' h,
          if_neg (by intro hc; exact h hc.1)]
    have hidx1 : ∀ b ∈ rest, b.2 < (updateAt chain i0 fm).length := by
      intro b hb
      rw [length_updateAt]
      exact hidx b (by simp [hb])
    rw [show addListenerRegistry chain ((g0, i0) :: rest) lid =
        addListenerRegistry (updateAt chain i0 fm) rest lid from rfl]
    rw [ih (updateAt chain i0 fm) hkeys.2 hidx1]
    by_cases hmem : (g, i) ∈ ((g0, i0) :: rest)
    · rcases List.mem_cons.mp hmem with hhd | htl
      · have hg : g = g0 := (Prod.mk.injEq _ _ _ _ ▸ hhd).1
        have hi : i = i0 := (Prod.mk.injEq _ _ _ _ ▸ hhd).2
        subst hg
        subst hi
        have hnotin : (g, i) ∉ rest := by
          intro hc
          exact hk0 (List.mem_map.mpr ⟨(g, i), hc, rfl⟩)
        rw [if_neg hnotin, if_pos hmem, hstep i g, if_pos ⟨rfl, rfl⟩]
      · have hg : g ≠ g0 := by
          intro hc
          subst hc
          exact hk0 (List.mem_map.mpr ⟨(g, i), htl, rfl⟩)
        rw [if_pos htl, if_pos hmem, hstep i g,
          if_neg (by intro hc; exact hg hc.2)]
    · have htl : (g, i) ∉ rest := fun hc => hmem (by simp [hc])
      have hhd : ¬ (i = i0 ∧ g = g0) := by
        intro hc
        exact hmem (by simp [Prod.ext_iff, hc.1, hc.2])
      rw [if_neg htl, if_neg hmem, hstep i g, if_neg hhd]

theorem listenersAt_invalidateRegistry (bindings : List (String × Nat))
    (chain : List Med) (ms : List Nat)
    (hkeys : (bindings.map Prod.fst).Nodup)
    (hidx : ∀ b ∈ bindings, b.2 < chain.length) (i : Nat) (g : String) :
    listenersAt (invalidateRegistry chain bindings ms) i g =
      if (g, i) ∈ bindings then
        ms.foldl (fun ys l => ys.erase l) (listenersAt chain i g)
      else listenersAt chain i g := by
  induction bindings generalizing chain with
  | nil => simp [invalidateRegistry]
  | cons b rest ih =>
    obtain ⟨g0, i0⟩ := b
    simp only [List.map_cons, List.nodup_cons] at hkeys
    have hk0 : g0 ∉ rest.map Prod.fst := hkeys.1
    have hi0 : i0 < chain.length := hidx (g0, i0) (by simp)
    have hm0 : chain[i0]? = some chain[i0] := List.getElem?_eq_getElem hi0
    set fm : Med → Med := fun m =>
      { m with
        paramListeners :=
          match assocGet m.paramListeners g0 with
          | none => m.paramListeners
          | some xs =>
            assocSet m.paramListeners g0
              (ms.foldl (fun ys l => ys.erase l) xs) }
      with hfm
    have hstep : ∀ (i' : Nat) (g' : String),
        listenersAt (updateAt chain i0 fm) i' g' =
          if i' = i0 ∧ g' = g0 then
            ms.foldl (fun ys l => ys.erase l) (listenersAt chain i0 g0)
          else listenersAt chain i' g' := by
      intro i' g'
      by_cases h : i' = i0
      · subst h
        rw [listenersAt_updateAt_eq chain i' fm g' chain[i'] hm0, hfm]
        rw [listenersFor_invStep]
        by_cases hg : g0 = g'
        · subst hg
          rw [if_pos rfl, if_pos ⟨rfl, rfl⟩]
          simp [listenersAt, hm0]
        · rw [if_neg hg, if_neg (by intro hc; exact hg hc.2.symm)]
          simp [listenersAt, hm0]
      · rw [listenersAt_updateAt_ne chain i0 fm i' g' h,
          if_neg (by intro hc; exact h hc.1)]
    have hidx1 : ∀ b ∈ rest, b.2 < (updateAt chain i0 fm).length := by
      intro b hb
      rw [length_updateAt]
      exact hidx b (by simp [hb])
    rw [show invalidateRegistry chain ((g0, i0) :: rest) ms =
        invalidateRegistry (updateAt chain i0 fm) rest ms from rfl]
    rw [ih (updateAt chain i0 fm) hkeys.2 hidx1]
    by_cases hmem : (g, i) ∈ ((g0, i0) :: rest)
    · rcases List.mem_cons.mp hmem with hhd | htl
      · have hg : g = g0 := (Prod.mk.injEq _ _ _ _ ▸ hhd).1
        have hi : i = i0 := (Prod.mk.injEq _ _ _ _ ▸ hhd).2
        subst hg
        subst hi
        have hnotin : (g, i) ∉ rest := by
          intro hc
          exact hk0 (List.mem_map.mpr ⟨(g, i), hc, rfl⟩)
        rw [if_neg hnotin, if_pos hmem, hstep i g, if_pos ⟨rfl, rfl⟩]
      · have hg : g ≠ g0 := by
          intro hc
          subst hc
          exact hk0 (List.mem_map.mpr ⟨(g, i), htl, rfl⟩)
        rw [if_pos htl, if_pos hmem, hstep i g,
          if_neg (by intro hc; exact hg hc.2)]
    · have htl : (g, i) ∉ rest := fun hc => hmem (by simp [hc])
      have hhd : ¬ (i = i0 ∧ g = g0) := by
        intro hc
        exact hmem (by simp [Prod.ext_iff, hc.1, hc.2])
      rw [if_neg htl, if_neg hmem, hstep i g, if_neg hhd]

theorem length_addListenersAll (ls : List Nat)
    (chain : List Med) (bindings : List (String × Nat)) :
    (addListenersAll chain bindings ls).length = chain.length := by
  induction ls generalizing chain with
  | nil => rfl
  | cons l ls ih =>
    simp only [addListenersAll]
    rw [ih, length_addListenerRegistry]

theorem listenersAt_addListenersAll (ls : List Nat)
    (chain : List Med) (bindings : List (String × Nat))
    (hkeys : (bindings.map Prod.fst).Nodup)
    (hidx : ∀ b ∈ bindings, b.2 < chain.length)
    (hfresh : ∀ l ∈ ls, ∀ b ∈ bindings, l ∉ listenersAt chain b.2 b.1)
    (hnd : ls.Nodup) (i : Nat) (g : String) :
    listenersAt (addListenersAll chain bindings ls) i g =
      if (g, i) ∈ bindings then listenersAt chain i g ++ ls
      else listenersAt chain i g := by
  induction ls generalizing chain with
  | nil => simp [addListenersAll]
  | cons l ls ih =>
    simp only [List.nodup_cons] at hnd
    have hl1 : ∀ (i' : Nat) (g' : String),
        listenersAt (addListenerRegistry chain bindings l) i' g' =
          if (g', i') ∈ bindings then insertIdem l (listenersAt chain i' g')
          else listenersAt chain i' g' :=
      fun i' g' => listenersAt_addListenerRegistry bindings chain l hkeys hidx i' g'
    have hinsert : ∀ b ∈ bindings,
        listenersAt (addListenerRegistry chain bindings l) b.2 b.1 =
          listenersAt chain b.2 b.1 ++ [l] := by
      intro b hb
      rw [hl1 b.2 b.1, if_pos (by simpa using hb), insertIdem,
        if_neg (hfresh l (by simp) b hb)]
    have hidx1 : ∀ b ∈ bindings,
        b.2 < (addListenerRegistry chain bindings l).length := by
      intro b hb
      rw [length_addListenerRegistry]
      exact hidx b hb
    have hfresh1 : ∀ l' ∈ ls, ∀ b ∈ bindings,
        l' ∉ listenersAt (addListenerRegistry chain bindings l) b.2 b.1 := by
      intro l' hl' b hb
      rw [hinsert b hb]
      intro hc
      rcases List.mem_append.mp hc with hc | hc
      · exact hfresh l' (by simp [hl']) b hb hc
      · rcases List.mem_singleton.mp hc with rfl
        exact hnd.1 hl'
    rw [show addListenersAll chain bindings (l :: ls) =
        addListenersAll (addListenerRegistry chain bindings l) bindings ls
      from rfl]
    rw [ih (addListenerRegistry chain bindings l) hidx1 hfresh1 hnd.2]
    by_cases hmem : (g, i) ∈ bindings
    · rw [if_pos hmem, if_pos hmem,
        hinsert (g, i) hmem]
      simp
    · rw [if_neg hmem, if_neg hmem, hl1 i g, if_neg hmem]

/-- C3: for an expression with fixed variable→mediator bindings, a
sequence of `addListener` calls subscribes each listener in every owning
mediator's registry for the bound parameter; `invalidate` then removes
exactly the entries those calls added — every registry in the chain is
restored to its prior listener sets, and entries added by others
(present before) are untouched. -/
theorem createExpression_listener_reversal (chain : List Med)
    (bindings : List (String × Nat)) (ls : List Nat)
    (hidx : ∀ b ∈ bindings, b.2 < chain.length)
    (hkeys : (bindings.map Prod.fst).Nodup)
    (hfresh : ∀ l ∈ ls, ∀ b ∈ bindings, l ∉ listenersAt chain b.2 b.1)
    (hnd : ls.Nodup) :
    (∀ b ∈ bindings,
      listenersAt (addListenersAll chain bindings ls) b.2 b.1
        = listenersAt chain b.2 b.1 ++ ls)
    ∧ (∀ (i : Nat) (g : String), (g, i) ∉ bindings →
        listenersAt (addListenersAll chain bindings ls) i g
          = listenersAt chain i g)
    ∧ (∀ (i : Nat) (g : String),
        listenersAt
          (invalidateRegistry (addListenersAll chain bindings ls) bindings ls)
          i g
        = listenersAt chain i g) := by
  have hall : ∀ (i : Nat) (g : String),
      listenersAt (addListenersAll chain bindings ls) i g =
        if (g, i) ∈ bindings then listenersAt chain i g ++ ls
        else listenersAt chain i g :=
    fun i g => listenersAt_addListenersAll ls chain bindings hkeys hidx hfresh
      hnd i g
  have hidx1 : ∀ b ∈ bindings,
      b.2 < (addListenersAll chain bindings ls).length := by
    intro b hb
    rw [length_addListenersAll]
    exact hidx b hb
  refine ⟨?_, ?_, ?_⟩
  · intro b hb
    rw [hall b.2 b.1, if_pos (by simpa using hb)]
  · intro i g hmem
    rw [hall i g, if_neg hmem]
  · intro i g
    rw [listenersAt_invalidateRegistry bindings _ ls hkeys hidx1 i g]
    by_cases hmem : (g, i) ∈ bindings
    · rw [if_pos hmem, hall i g, if_pos hmem,
        foldl_erase_append ls (listenersAt chain i g)
          (fun l hl => hfresh l hl (g, i) hmem) hnd]
    · rw [if_neg hmem, hall i g, if_neg hmem]

/-- Witness for C3: two mediators, the expression bound to `"a"` in
mediator 0 (which already has listener `7`) and `"b"` in mediator 1;
listener `5` is added and then invalidated, leaving the registries as
before. -/
theorem createExpression_listener_reversal_witness :
    listenersAt
      (addListenersAll
        [⟨[("a", Value.num 1)], [("a", [7])], ["a"]⟩,
          ⟨[("b", Value.num 2)], [], ["b"]⟩]
        [("a", 0), ("b", 1)] [5]) 0 "a" = [7, 5]
    ∧ listenersAt
        (invalidateRegistry
          (addListenersAll
            [⟨[("a", Value.num 1)], [("a", [7])], ["a"]⟩,
              ⟨[("b", Value.num 2)], [], ["b"]⟩]
            [("a", 0), ("b", 1)] [5])
          [("a", 0), ("b", 1)] [5]) 0 "a" = [7] := by
  have T := createExpression_listener_reversal
    [⟨[("a", Value.num 1)], [("a", [7])], ["a"]⟩,
      ⟨[("b", Value.num 2)], [], ["b"]⟩]
    [("a", 0), ("b", 1)] [5]
    (by decide) (by decide) (by decide) (by decide)
  constructor
  · exact (T.1 ("a", 0) (by decide)).trans (by decide)
  · exact (T.2.2 0 "a").trans (by decide)

/-! ## C6: addBatch range bookkeeping -/

theorem assocGet_append_left_none {α : Type} (m1 m2 : List (String × α))
    (k : String) (h : assocGet m1 k = none) :
    assocGet (m1 ++ m2) k = assocGet m2 k := by
  induction m1 with
  | nil => simp
  | cons hd tl ih =>
    obtain ⟨k0, v0⟩ := hd
    simp only [assocGet_cons] at h ⊢
    by_cases hk : k0 = k
    · simp [hk] at h
    · rw [if_neg hk] at h
      simpa [hk] using ih h

theorem assocSet_of_get_none {α : Type} (m : List (String × α)) (k : String)
    (v : α) (h : assocGet m k = none) :
    assocSet m k v = m ++ [(k, v)] := by
  induction m with
  | nil => rfl
  | cons hd tl ih =>
    obtain ⟨k0, v0⟩ := hd
    simp only [assocGet_cons] at h
    by_cases hk : k0 = k
    · simp [hk] at h
    · rw [if_neg hk] at h
      simp [assocSet, hk, ih h]

theorem flatMap_length_emit {D V : Type} (emit : D → List V) (vpi : Nat)
    (pts : List D)
    (h : ∀ d ∈ pts, (emit d).length = 0 ∨ (emit d).length = vpi) :
    (pts.flatMap emit).length =
      vpi * (pts.filter (fun d => !(emit d).isEmpty)).length := by
  induction pts with
  | nil => simp
  | cons d pts ih =>
    have ihx := ih (fun d' hd' => h d' (by simp [hd']))
    rcases h d (by simp) with h0 | h0
    · have hnil : emit d = [] := List.length_eq_zero.mp h0
      simp [hnil, ihx]
    · by_cases hv : emit d = []
      · have : vpi = 0 := by
          rw [hv] at h0
          simpa using h0.symm
        simp [hv, ihx, this]
      · have hne : (emit d).isEmpty = false := by
          simpa using hv
        simp only [List.flatMap_cons, List.length_append, ihx, h0,
          List.filter_cons, hne, Bool.not_false, if_pos, List.length_cons]
        ring

theorem fold_addBatchEmit_spec {D V : Type} (emit : D → List V)
    (batches : List (String × List D)) (vb : VB V)
    (hkeys : ((effectiveBatches emit batches).map Prod.fst).Nodup)
    (hdisj : ∀ b ∈ effectiveBatches emit batches,
      assocGet vb.rangeMap b.1 = none) :
    batches.foldl (fun vb b => addBatchEmit emit vb b.1 b.2) vb =
      ⟨vb.vertices ++ batches.flatMap (fun b => b.2.flatMap emit),
        vb.rangeMap ++ mkEntries emit vb.vertices.length batches⟩ := by
  induction batches generalizing vb with
  | nil =>
    obtain ⟨vs, rm⟩ := vb
    simp [mkEntries]
  | cons b rest ih =>
    obtain ⟨k0, pts0⟩ := b
    by_cases hn : (pts0.flatMap emit).length = 0
    · have hnil : pts0.flatMap emit = [] := List.length_eq_zero.mp hn
      have heff : effectiveBatches emit ((k0, pts0) :: rest)
          = effectiveBatches emit rest := by
        simp [effectiveBatches, hnil]
      have hstep : addBatchEmit emit vb k0 pts0 = vb := by
        obtain ⟨vs, rm⟩ := vb
        simp [addBatchEmit, hnil]
      rw [List.foldl_cons, hstep,
        ih vb (by rw [heff] at hkeys; exact hkeys)
          (by rw [heff] at hdisj; exact hdisj)]
      simp [mkEntries, hn, hnil]
    · have hne : (pts0.flatMap emit).isEmpty = false := by
        cases hx : pts0.flatMap emit with
        | nil => rw [hx] at hn; simp at hn
        | cons a l => simp
      have heff : effectiveBatches emit ((k0, pts0) :: rest)
          = (k0, pts0) :: effectiveBatches emit rest := by
        simp [effectiveBatches, hne]
      rw [heff] at hkeys hdisj
      simp only [List.map_cons, List.nodup_cons] at hkeys
      have hget0 : assocGet vb.rangeMap k0 = none :=
        hdisj (k0, pts0) (by simp)
      have hstep : addBatchEmit emit vb k0 pts0 =
          ⟨vb.vertices ++ pts0.flatMap emit,
            vb.rangeMap ++
              [(k0, ⟨vb.vertices.length, (pts0.flatMap emit).length⟩)]⟩ := by
        simp only [addBatchEmit, List.length_append,
          Nat.add_sub_cancel_left, ne_eq]
        rw [if_pos hn, assocSet_of_get_none vb.rangeMap k0 _ hget0]
      have hdisj1 : ∀ b ∈ effectiveBatches emit rest,
          assocGet (vb.rangeMap ++
            [(k0, (⟨vb.vertices.length, (pts0.flatMap emit).length⟩ :
              RangeEntry))]) b.1 = none := by
        intro b hb
        have hbk : b.1 ≠ k0 := by
          intro hc
          exact hkeys.1 (List.mem_map.mpr ⟨b, hb, hc⟩)
        have hk : ¬ k0 = b.1 := fun h => hbk h.symm
        rw [assocGet_append_left_none _ _ _ (hdisj b (by simp [hb]))]
        simp [assocGet, hk]
      rw [List.foldl_cons, hstep, ih _ hkeys.2 hdisj1]
      have hmk : mkEntries emit vb.vertices.length ((k0, pts0) :: rest) =
          (k0, ⟨vb.vertices.length, (pts0.flatMap emit).length⟩) ::
            mkEntries emit
              (vb.vertices.length + (pts0.flatMap emit).length) rest := by
        simp only [mkEntries]
        rw [if_pos hn]
      rw [VB.mk.injEq]
      constructor
      · rw [List.flatMap_cons, List.append_assoc]
      · rw [hmk, List.length_append, List.append_assoc, List.singleton_append]

theorem mkEntries_contiguous {D V : Type} (emit : D → List V)
    (batches : List (String × List D)) (start : Nat) :
    contiguous start ((mkEntries emit start batches).map Prod.snd) = true := by
  induction batches generalizing start with
  | nil => rfl
  | cons b rest ih =>
    obtain ⟨k0, pts0⟩ := b
    by_cases hn : (pts0.flatMap emit).length = 0
    · simp only [mkEntries]
      rw [if_neg (by simpa using hn)]
      exact ih start
    · simp only [mkEntries]
      rw [if_pos hn]
      simp only [List.map_cons, contiguous]
      rw [ih (start + (pts0.flatMap emit).length)]
      simp

theorem mkEntries_sumCounts {D V : Type} (emit : D → List V)
    (batches : List (String × List D)) (start : Nat) :
    sumCounts ((mkEntries emit start batches).map Prod.snd) =
      (batches.flatMap (fun b => b.2.flatMap emit)).length := by
  induction batches generalizing start with
  | nil => rfl
  | cons b rest ih =>
    obtain ⟨k0, pts0⟩ := b
    by_cases hn : (pts0.flatMap emit).length = 0
    · have hnil : pts0.flatMap emit = [] := List.length_eq_zero.mp hn
      simp only [mkEntries]
      rw [if_neg (by simpa using hn)]
      rw [ih start]
      simp [hnil]
    · simp only [mkEntries]
      rw [if_pos hn]
      simp only [List.map_cons, sumCounts, List.sum_cons]
      have := ih (start + (pts0.flatMap emit).length)
      simp only [sumCounts] at this
      rw [this]
      simp

theorem mkEntries_keys {D V : Type} (emit : D → List V)
    (batches : List (String × List D)) (start : Nat) :
    (mkEntries emit start batches).map Prod.fst =
      (effectiveBatches emit batches).map Prod.fst := by
  induction batches generalizing start with
  | nil => rfl
  | cons b rest ih =>
    obtain ⟨k0, pts0⟩ := b
    by_cases hn : (pts0.flatMap emit).length = 0
    · have hnil : pts0.flatMap emit = [] := List.length_eq_zero.mp hn
      simp only [mkEntries]
      rw [if_neg (by simpa using hn)]
      rw [ih start]
      simp [effectiveBatches, hnil]
    · have hne : (pts0.flatMap emit).isEmpty = false := by
        cases hx : pts0.flatMap emit with
        | nil => rw [hx] at hn; simp at hn
        | cons a l => simp
      simp only [mkEntries]
      rw [if_pos hn]
      simp only [List.map_cons, ih (start + (pts0.flatMap emit).length)]
      simp [effectiveBatches, hne]

theorem mkEntries_lookup {D V : Type} (emit : D → List V)
    (bk : String) (bpts : List D)
    (batches : List (String × List D)) (start : Nat)
    (hkeys : ((effectiveBatches emit batches).map Prod.fst).Nodup)
    (hb : (bk, bpts) ∈ batches)
    (hne : bpts.flatMap emit ≠ []) :
    ∃ off, assocGet (mkEntries emit start batches) bk =
      some ⟨off, (bpts.flatMap emit).length⟩ := by
  induction batches generalizing start with
  | nil => simp at hb
  | cons hd rest ih =>
    obtain ⟨k0, pts0⟩ := hd
    rcases List.mem_cons.mp hb with hhd | htl
    · injection hhd with h1 h2
      subst h1
      subst h2
      have hn : (bpts.flatMap emit).length ≠ 0 :=
        fun hc => hne (List.length_eq_zero.mp hc)
      refine ⟨start, ?_⟩
      simp only [mkEntries]
      rw [if_pos hn]
      simp [assocGet]
    · by_cases hn0 : (pts0.flatMap emit).length = 0
      · have hnil : pts0.flatMap emit = [] := List.length_eq_zero.mp hn0
        have heff : effectiveBatches emit ((k0, pts0) :: rest)
            = effectiveBatches emit rest := by
          simp [effectiveBatches, hnil]
        rw [heff] at hkeys
        simp only [mkEntries]
        rw [if_neg (by simpa using hn0)]
        exact ih start hkeys htl
      · have hne0 : (pts0.flatMap emit).isEmpty = false := by
          cases hx : pts0.flatMap emit with
          | nil => rw [hx] at hn0; simp at hn0
          | cons a l => simp
        have heff : effectiveBatches emit ((k0, pts0) :: rest)
            = (k0, pts0) :: effectiveBatches emit rest := by
          simp [effectiveBatches, hne0]
        rw [heff] at hkeys
        simp only [List.map_cons, List.nodup_cons] at hkeys
        have hbeff : (bk, bpts) ∈ effectiveBatches emit rest := by
          simp only [effectiveBatches, List.mem_filter]
          refine ⟨htl, ?_⟩
          cases hx : bpts.flatMap emit with
          | nil => exact absurd hx hne
          | cons a l => simp
        have hbk : ¬ k0 = bk := by
          intro hc
          exact hkeys.1 (List.mem_map.mpr ⟨(bk, bpts), hbeff, hc.symm⟩)
        simp only [mkEntries]
        rw [if_pos hn0]
        simp only [assocGet_cons, if_neg hbk]
        exact ih (start + (pts0.flatMap emit).length) hkeys.2 htl

/-- C6 (amended): for any per-datum vertex emission in which every item
of every batch yields either `0` (skipped) or `vpi` vertices, and a
sequence of `addBatch` calls in which no key is used by two batches that
both produce vertices, the builder's final state satisfies: a batch with
at least one non-skipped item has a range entry whose count is `vpi`
times its non-skipped item count; the sum of counts over the range map
equals the `vertexCount` of `toArrays()`; the ranges partition the
vertex buffer in insertion order without gaps.  (With a repeated key,
`rangeMap.set` overwrites the earlier range and the sum/partition
property fails — see the counterexample.) -/
theorem addBatch_range_partition {D V : Type} (emit : D → List V) (vpi : Nat)
    (batches : List (String × List D)) (final : VB V)
    (hemit : ∀ b ∈ batches, ∀ d ∈ b.2,
      (emit d).length = 0 ∨ (emit d).length = vpi)
    (hkeys : ((effectiveBatches emit batches).map Prod.fst).Nodup)
    (hfinal : final =
      batches.foldl (fun vb b => addBatchEmit emit vb b.1 b.2) VB.empty) :
    (∀ (bk : String) (bpts : List D), (bk, bpts) ∈ batches →
      bpts.flatMap emit ≠ [] →
      ∃ off, assocGet final.rangeMap bk =
        some ⟨off, vpi * (bpts.filter (fun d => !(emit d).isEmpty)).length⟩)
    ∧ sumCounts (final.rangeMap.map Prod.snd) =
        (VertexBuilder.toArrays final).1
    ∧ rangesPartition (final.rangeMap.map Prod.snd)
        (VertexBuilder.toArrays final).1
    ∧ final.rangeMap.map Prod.fst =
        (effectiveBatches emit batches).map Prod.fst := by
  have hchar := fold_addBatchEmit_spec emit batches VB.empty hkeys
    (by intro b _; rfl)
  have hfinal2 : final =
      ⟨batches.flatMap (fun b => b.2.flatMap emit),
        mkEntries emit 0 batches⟩ := by
    rw [hfinal, hchar]
    simp [VB.empty]
  subst hfinal2
  have hsum := mkEntries_sumCounts emit batches 0
  refine ⟨?_, ?_, ?_, ?_⟩
  · intro bk bpts hb hne
    obtain ⟨off, hoff⟩ := mkEntries_lookup emit bk bpts batches 0 hkeys hb hne
    refine ⟨off, ?_⟩
    rw [show (⟨batches.flatMap (fun b => b.2.flatMap emit),
        mkEntries emit 0 batches⟩ : VB V).rangeMap
      = mkEntries emit 0 batches from rfl, hoff,
      flatMap_length_emit emit vpi bpts (hemit (bk, bpts) hb)]
  · exact hsum
  · exact ⟨mkEntries_contiguous emit batches 0, hsum⟩
  · exact mkEntries_keys emit batches 0

/-- C6 counterexample: the claim as stated fails for a repeated key —
`addBatch("a", one item)` then `addBatch("a", two items)` (one vertex
per item) leaves `vertexCount = 3` but the single surviving range for
`"a"` has count `2`, so the counts do not sum to the vertex count and
the ranges do not partition the buffer. -/
theorem addBatch_duplicate_key_counterexample :
    (VertexBuilder.toArrays
      (([("a", [()]), ("a", [(), ()])] : List (String × List Unit)).foldl
        (fun vb b => addBatchEmit (fun _ : Unit => [()]) vb b.1 b.2)
        VB.empty)).1 = 3
    ∧ sumCounts
        ((([("a", [()]), ("a", [(), ()])] : List (String × List Unit)).foldl
          (fun vb b => addBatchEmit (fun _ : Unit => [()]) vb b.1 b.2)
          VB.empty).rangeMap.map Prod.snd) = 2
    ∧ ¬ rangesPartition
        ((([("a", [()]), ("a", [(), ()])] : List (String × List Unit)).foldl
          (fun vb b => addBatchEmit (fun _ : Unit => [()]) vb b.1 b.2)
          VB.empty).rangeMap.map Prod.snd)
        (VertexBuilder.toArrays
          (([("a", [()]), ("a", [(), ()])] : List (String × List Unit)).foldl
            (fun vb b => addBatchEmit (fun _ : Unit => [()]) vb b.1 b.2)
            VB.empty)).1 := by
  refine ⟨rfl, rfl, ?_⟩
  intro h
  exact absurd h.2 (by decide)

/-- Witness for C6's amended theorem: two distinct keys, two vertices
per item. -/
theorem addBatch_range_partition_witness :
    (∃ off, assocGet
      ((([("x", [()]), ("y", [(), ()])] : List (String × List Unit)).foldl
        (fun vb b => addBatchEmit (fun _ : Unit => [(), ()]) vb b.1 b.2)
        VB.empty).rangeMap) "y" = some ⟨off, 2 * 2⟩)
    ∧ rangesPartition
        ((([("x", [()]), ("y", [(), ()])] : List (String × List Unit)).foldl
          (fun vb b => addBatchEmit (fun _ : Unit => [(), ()]) vb b.1 b.2)
          VB.empty).rangeMap.map Prod.snd)
        (VertexBuilder.toArrays
          (([("x", [()]), ("y", [(), ()])] : List (String × List Unit)).foldl
            (fun vb b => addBatchEmit (fun _ : Unit => [(), ()]) vb b.1 b.2)
            VB.empty)).1 := by
  have T := addBatch_range_partition (fun _ : Unit => [(), ()]) 2
    [("x", [()]), ("y", [(), ()])] _
    (by decide) (by decide) rfl
  obtain ⟨off, hoff⟩ := T.1 "y" [(), ()] (by decide) (by decide)
  exact ⟨⟨off, hoff⟩, T.2.2.1⟩
